import Mathlib

/-!
Verification of the `pipeline.py` engine (jspenger/pipeline): a shallow
embedding of the specification-expansion algorithm (`Pipeline.__assemble`),
the executor (`Pipeline.__run_pipeline`), the driver (`Pipeline.transform`)
and the result post-processing helper (`Pipeline.filter_results`), together
with theorems settling the specification's claims about them.

Python values that can appear in a specification tree or in the execution
environment are modelled by the inductive type `PyObj` (integers, strings,
callables, tuples, lists, dictionaries).  Dictionary and environment keys are
modelled by `PyKey` (integer or string): these are the sink identifiers the
engine actually uses (positional inputs are ints `0, 1, ...`, named inputs
and stage keys are strings).  Python dictionaries are modelled as ordered
association lists with in-place overwrite, i.e. insertion-ordered mappings.
Callables are modelled as indices into a function table `F` supplied as a
parameter to the executor; a call may return a value or raise (`Except`).
Raised Python exceptions are modelled by `PyError`; the driver's
`try/except Exception` treats every error alike, so only the presence of an
error matters.
-/

/-- Hashable key of a Python dict / execution environment: an integer index
or a string name (the sink identifiers used by the engine). -/
inductive PyKey where
  | int (n : Int)
  | str (s : String)
deriving DecidableEq

/-- A Python object of the fragment the engine manipulates: atoms (ints,
strings, callables), tuples (option nodes), lists (sequence nodes) and
dicts (stage nodes / mappings, as insertion-ordered key-value lists). -/
inductive PyObj where
  | int (n : Int)
  | str (s : String)
  | func (id : Nat)
  | tup (vs : List PyObj)
  | list (vs : List PyObj)
  | dict (kvs : List (PyKey × PyObj))

/-- A Python dictionary: insertion-ordered association list. -/
abbrev Dict := List (PyKey × PyObj)

/-- A raised Python exception.  `transform` catches all of them alike. -/
inductive PyError where
  | keyError
  | typeError
  | indexError
  | userError
deriving DecidableEq

/-- Python `d[k]` lookup on a dict (first matching key; keys are unique in
a real Python dict, and `dictSet` preserves that uniqueness). -/
def dictGet : Dict → PyKey → Option PyObj
  | [], _ => none
  | (k', v) :: rest, k => if k' = k then some v else dictGet rest k

/-- Python `d[k] = v` on a dict: overwrite in place if the key is present
(keeping its position, as Python dicts do), else append at the end. -/
def dictSet : Dict → PyKey → PyObj → Dict
  | [], k, v => [(k, v)]
  | (k', v') :: rest, k, v =>
    if k' = k then (k', v) :: rest else (k', v') :: dictSet rest k v

/-- Python `dict(pairs)`: build a dict from a pair list, later pairs
overwriting earlier ones (first occurrence fixes the position, last
occurrence fixes the value). -/
def dictOfPairs (ps : List (PyKey × PyObj)) : Dict :=
  ps.foldl (fun d p => dictSet d p.1 p.2) []

/-- View a key as the Python object it is (dict iteration yields keys). -/
def keyToObj : PyKey → PyObj
  | .int n => .int n
  | .str s => .str s

/-- Python hashing of an object used as a dict key.  The engine only ever
uses int and string sink identifiers; other objects are outside the
modelled key fragment and are treated as a `typeError`. -/
def toKey : PyObj → Except PyError PyKey
  | .int n => .ok (.int n)
  | .str s => .ok (.str s)
  | _ => .error .typeError

/-- Python iteration `for x in obj`: lists and tuples yield their elements,
dicts their keys, strings their characters; other objects are not iterable. -/
def pyIter : PyObj → Except PyError (List PyObj)
  | .list vs => .ok vs
  | .tup vs => .ok vs
  | .dict kvs => .ok (kvs.map (fun kv => keyToObj kv.1))
  | .str s => .ok (s.toList.map (fun c => .str (String.mk [c])))
  | _ => .error .typeError

/-- Python `d[k]` with a `KeyError` when the key is absent. -/
def getKey (d : Dict) (k : PyKey) : Except PyError PyObj :=
  match dictGet d k with
  | some v => .ok v
  | none => .error .keyError

/-- Cross product of choice lists in `itertools.product` order: the first
(leftmost) axis varies slowest, the last (rightmost) axis fastest.  The
product of zero axes is the single empty choice. -/
def pyProduct : List (List PyObj) → List (List PyObj)
  | [] => [[]]
  | xs :: rest => xs.flatMap (fun x => (pyProduct rest).map (x :: ·))

mutual
/-- `Pipeline.__assemble`: expand a specification tree into the list of all
concrete (option-free) specifications.  A tuple is an option node and
contributes the concatenation of its alternatives' expansions; a dict
expands each value and takes the cross product over its keys; a list
expands each element and takes the cross product over positions; an atom
expands to itself. -/
def assemble : PyObj → List PyObj
  | .tup alts => assembleOptions alts
  | .dict kvs =>
    (pyProduct (assembleVals kvs)).map (fun c => .dict ((kvs.map Prod.fst).zip c))
  | .list vs => (pyProduct (assembleEach vs)).map .list
  | .int n => [.int n]
  | .str s => [.str s]
  | .func i => [.func i]

/-- The `ret.extend(self.__assemble(specification[i]))` loop of the tuple
branch of `Pipeline.__assemble`: concatenation over the alternatives. -/
def assembleOptions : List PyObj → List PyObj
  | [] => []
  | a :: rest => assemble a ++ assembleOptions rest

/-- The per-element recursive expansion of the list branch of
`Pipeline.__assemble`. -/
def assembleEach : List PyObj → List (List PyObj)
  | [] => []
  | v :: rest => assemble v :: assembleEach rest

/-- The per-value recursive expansion of the dict branch of
`Pipeline.__assemble` (keys are not expanded). -/
def assembleVals : List (PyKey × PyObj) → List (List PyObj)
  | [] => []
  | (_, v) :: rest => assemble v :: assembleVals rest
end

mutual
/-- A specification tree contains no option node (no tuple anywhere among
the expanded positions, i.e. list elements and dict values). -/
def optionFree : PyObj → Bool
  | .tup _ => false
  | .dict kvs => optionFreeDict kvs
  | .list vs => optionFreeList vs
  | .int _ => true
  | .str _ => true
  | .func _ => true

/-- All elements of a list are option free. -/
def optionFreeList : List PyObj → Bool
  | [] => true
  | v :: rest => optionFree v && optionFreeList rest

/-- All values of a dict are option free. -/
def optionFreeDict : List (PyKey × PyObj) → Bool
  | [] => true
  | (_, v) :: rest => optionFree v && optionFreeDict rest
end

mutual
/-- `Pipeline.__flatten_nested_list` on the items of an iterable: items
that are lists are flattened recursively, all other items are kept. -/
def flattenNestedList : List PyObj → List PyObj
  | [] => []
  | item :: rest => flattenItem item ++ flattenNestedList rest

/-- One item of `Pipeline.__flatten_nested_list`'s loop. -/
def flattenItem : PyObj → List PyObj
  | .list vs => flattenNestedList vs
  | x => [x]
end

/-- `Pipeline.__construct`: flatten a concrete specification into the flat
ordered stage list (`__flatten_nested_list` iterates its argument: a list
or tuple yields elements, a dict its keys, a string its characters; a
non-iterable raises `TypeError`).  Note this runs outside the driver's
per-combination `try`. -/
def construct : PyObj → Except PyError (List PyObj)
  | .list vs => .ok (flattenNestedList vs)
  | .tup vs => .ok (flattenNestedList vs)
  | .dict kvs => .ok (flattenNestedList (kvs.map (fun kv => keyToObj kv.1)))
  | .str s => .ok (flattenNestedList (s.toList.map (fun c => .str (String.mk [c]))))
  | _ => .error .typeError

/-- A function table: interpretation of the callables appearing in a
specification.  A call receives positional arguments and keyword arguments
and either returns a value or raises. -/
abbrev FuncTable := Nat → List PyObj → Dict → Except PyError PyObj

/-- Python call `fn(*args, **kw)`: only callables can be invoked. -/
def callF (F : FuncTable) (fn : PyObj) (args : List PyObj) (kw : Dict) :
    Except PyError PyObj :=
  match fn with
  | .func i => F i args kw
  | _ => .error .typeError

/-- The `inputs.append(data[inp])` loop of `Pipeline.__run_pipeline`:
resolve each declared input sink in the environment; a missing sink is a
`KeyError` for this combination. -/
def resolveInputs (data : Dict) : List PyObj → Except PyError (List PyObj)
  | [] => .ok []
  | inp :: rest =>
    match toKey inp with
    | .error e => .error e
    | .ok k =>
      match dictGet data k with
      | none => .error .keyError
      | some v =>
        match resolveInputs data rest with
        | .error e => .error e
        | .ok vs => .ok (v :: vs)

/-- The `if type(outputs) != tuple: outputs = (outputs,)` normalization of
`Pipeline.__run_pipeline`: a tuple return value is used as-is, any other
return value becomes a one-element tuple. -/
def normalizeOutputs : PyObj → List PyObj
  | .tup vs => vs
  | v => [v]

/-- The `for i, out in enumerate(stage['out']): data[out] = outputs[i]`
loop of `Pipeline.__run_pipeline`, over the enumerated out list:
`outputs[i]` raises `IndexError` when the output tuple is too short, and
each write goes to the environment key of the out identifier. -/
def writeOuts (vs : List PyObj) : Dict → List (Nat × PyObj) → Except PyError Dict
  | d, [] => .ok d
  | d, (i, out) :: rest =>
    match vs[i]? with
    | none => .error .indexError
    | some v =>
      match toKey out with
      | .error e => .error e
      | .ok k => writeOuts vs (dictSet d k v) rest

/-- The input-resolution and function-invocation part of one stage of
`Pipeline.__run_pipeline`: read `stage['in']`, resolve the inputs, and call
`stage['function']` on them, with `**stage['kwargs']` if present. -/
def stageCall (F : FuncTable) (data : Dict) (skvs : Dict) : Except PyError PyObj :=
  match getKey skvs (.str "in") with
  | .error e => .error e
  | .ok inList =>
    match pyIter inList with
    | .error e => .error e
    | .ok inKeys =>
      match resolveInputs data inKeys with
      | .error e => .error e
      | .ok inputs =>
        match getKey skvs (.str "function") with
        | .error e => .error e
        | .ok fn =>
          match dictGet skvs (.str "kwargs") with
          | some (.dict kw) => callF F fn inputs kw
          | some _ => .error .typeError
          | none => callF F fn inputs []

/-- One iteration of the stage loop of `Pipeline.__run_pipeline`: resolve
inputs, invoke the function, normalize the return value to a tuple, and
write the outputs positionally to the `out` identifiers. -/
def runStage (F : FuncTable) (data : Dict) (stage : PyObj) : Except PyError Dict :=
  match stage with
  | .dict skvs =>
    match stageCall F data skvs with
    | .error e => .error e
    | .ok rawOut =>
      match getKey skvs (.str "out") with
      | .error e => .error e
      | .ok outList =>
        match pyIter outList with
        | .error e => .error e
        | .ok outs => writeOuts (normalizeOutputs rawOut) data outs.enum
  | _ => .error .typeError

/-- The stage loop of `Pipeline.__run_pipeline`: run the stages strictly in
flattened declaration order against the threaded environment. -/
def runStages (F : FuncTable) : Dict → List PyObj → Except PyError Dict
  | d, [] => .ok d
  | d, stage :: rest =>
    match runStage F d stage with
    | .error e => .error e
    | .ok d' => runStages F d' rest

/-- The `for i, arg in enumerate(args): data[i] = arg` loop of
`Pipeline.__run_pipeline`: bind positional inputs to integer sinks. -/
def setArgs : Dict → Nat → List PyObj → Dict
  | d, _, [] => d
  | d, i, a :: rest => setArgs (dictSet d (.int (i : Int)) a) (i + 1) rest

/-- The environment initialization of `Pipeline.__run_pipeline`:
`data = kwargs; data['pipeline'] = pipeline; data[i] = args[i]`. -/
def initEnv (pipeline : List PyObj) (args : List PyObj) (kwargs : Dict) : Dict :=
  setArgs (dictSet kwargs (.str "pipeline") (.list pipeline)) 0 args

/-- `Pipeline.__run_pipeline`: initialize the environment from the caller's
inputs, bind the reserved `'pipeline'` sink to the flat stage list, run the
stages in order, and return the final environment. -/
def run_pipeline (F : FuncTable) (pipeline : List PyObj) (args : List PyObj)
    (kwargs : Dict) : Except PyError Dict :=
  runStages F (initEnv pipeline args kwargs) pipeline

/-- The driver loop of `Pipeline.transform` over the already-expanded
concrete specifications: `__construct` runs outside the per-combination
`try` (its errors abort the whole call), the execution runs inside it (its
errors drop that combination's result and the loop continues). -/
def transformCombos (F : FuncTable) (args : List PyObj) (kwargs : Dict) :
    List PyObj → Except PyError (List Dict)
  | [] => .ok []
  | spec :: rest =>
    match construct spec with
    | .error e => .error e
    | .ok pipeline =>
      match run_pipeline F pipeline args kwargs with
      | .ok env =>
        match transformCombos F args kwargs rest with
        | .error e => .error e
        | .ok tail => .ok (env :: tail)
      | .error _ => transformCombos F args kwargs rest

/-- `Pipeline.transform`: expand the held specification, then run each
concrete specification on the caller's inputs, collecting the successful
environments in expansion order and skipping failed combinations. -/
def transform (F : FuncTable) (spec : PyObj) (args : List PyObj) (kwargs : Dict) :
    Except PyError (List Dict) :=
  transformCombos F args kwargs (assemble spec)

mutual
/-- The pair list `ret` built by `_flatten_nested_dict` inside
`Pipeline.filter_results`: each dict entry is listed (parent before child)
followed by the items of the recursively flattened value when that value
is itself a dict or list; a list contributes the items of each flattened
element; an atom contributes nothing. -/
def flattenPairs : PyObj → List (PyKey × PyObj)
  | .list vs => flattenPairsList vs
  | .dict kvs => flattenPairsDict kvs
  | _ => []

/-- The list branch of `_flatten_nested_dict`:
`ret.extend(_flatten_nested_dict(i).items())` for each element. -/
def flattenPairsList : List PyObj → List (PyKey × PyObj)
  | [] => []
  | i :: rest => dictOfPairs (flattenPairs i) ++ flattenPairsList rest

/-- The dict branch of `_flatten_nested_dict`: `ret.append((k, v))`, then
for a dict or list value also `ret.extend(_flatten_nested_dict(v).items())`. -/
def flattenPairsDict : List (PyKey × PyObj) → List (PyKey × PyObj)
  | [] => []
  | (k, v) :: rest =>
    (k, v) ::
      ((match v with
        | .dict _ => dictOfPairs (flattenPairs v)
        | .list _ => dictOfPairs (flattenPairs v)
        | _ => []) ++ flattenPairsDict rest)
end

/-- `_flatten_nested_dict` of `Pipeline.filter_results`: build the pair
list and return `dict(ret)` (later pairs overwrite earlier ones). -/
def flattenNestedDict (x : PyObj) : Dict :=
  dictOfPairs (flattenPairs x)

/-- `Pipeline.filter_results`: optionally flatten each result environment,
then optionally keep only the allow-listed columns (preserving the result's
own key order). -/
def filter_results (results : List Dict) (columns : Option (List PyKey))
    (flatten : Bool) : List Dict :=
  results.map (fun r =>
    let r := if flatten then flattenNestedDict (.dict r) else r
    match columns with
    | some cols => r.filter (fun kv => cols.contains kv.1)
    | none => r)

/-- An `out` identifier writes environment key `s`: it hashes to `s`. -/
def writesKeyB (s : PyKey) (out : PyObj) : Bool :=
  match toKey out with
  | .ok k => k == s
  | .error _ => false

/-- The position (into the normalized output tuple) of the last entry of an
`out` list that writes environment key `s`: the write that survives the
positional write loop. -/
def lastWritePos (outs : List PyObj) (s : PyKey) : Option Nat :=
  ((outs.enum.filter (fun p => writesKeyB s p.2)).getLast?).map Prod.fst

/-- A stage descriptor declares a write to environment key `s` in its `out`
list. -/
def stageWritesKey (st : PyObj) (s : PyKey) : Bool :=
  match st with
  | .dict skvs =>
    match dictGet skvs (.str "out") with
    | some outList =>
      match pyIter outList with
      | .ok outs => outs.any (writesKeyB s)
      | .error _ => false
    | none => false
  | _ => false

/-- Concrete no-input stage writing sink `"x"` through callable `fid`,
used by the witness theorems. -/
def wOut (fid : Nat) : PyObj :=
  .dict [(.str "function", .func fid), (.str "in", .list []),
         (.str "out", .list [.str "x"])]

/-- Concrete stage reading the never-written sink `"undeclared"`, used by
the witness theorems for the missing-sink scenario. -/
def wBad : PyObj :=
  .dict [(.str "function", .func 0), (.str "in", .list [.str "undeclared"]),
         (.str "out", .list [.str "x"])]

/-- Concrete malformed stage mapping missing its `out` key, used by the
witness theorems for the malformed-specification scenario. -/
def wNoOut : PyObj :=
  .dict [(.str "function", .func 0), (.str "in", .list [])]

/-- Concrete stage content whose callable returns a 3-tuple consumed by a
2-element `out` list, used by the witness theorems. -/
def wMultiKvs : Dict :=
  [(.str "function", .func 3), (.str "in", .list []),
   (.str "out", .list [.str "a", .str "b"])]

/-- Concrete function table for the witness theorems: callable 0 returns 7,
1 returns 10, 2 returns 20, and 3 returns the 3-tuple (1, 2, 3). -/
def wF : FuncTable := fun i _ _ =>
  if i = 0 then .ok (.int 7)
  else if i = 1 then .ok (.int 10)
  else if i = 2 then .ok (.int 20)
  else .ok (.tup [.int 1, .int 2, .int 3])

/-! ### Auxiliary list and dictionary lemmas -/

theorem getLast?_mem {α : Type} {l : List α} {a : α} (h : l.getLast? = some a) :
    a ∈ l := by
  induction l with
  | nil => simp at h
  | cons x xs ih =>
    cases xs with
    | nil => simp [List.getLast?] at h; simp [h]
    | cons y ys =>
      rw [List.getLast?_cons_cons] at h
      exact List.mem_cons_of_mem _ (ih h)

theorem dictGet_dictSet (d : Dict) (k k' : PyKey) (v : PyObj) :
    dictGet (dictSet d k v) k' = if k = k' then some v else dictGet d k' := by
  induction d with
  | nil => simp [dictSet, dictGet]
  | cons kv rest ih =>
    obtain ⟨k0, v0⟩ := kv
    simp only [dictSet, dictGet]
    by_cases h0 : k0 = k
    · subst h0
      simp only [if_pos rfl, dictGet]
      by_cases h1 : k0 = k' <;> simp [h1]
    · simp only [if_neg h0, dictGet]
      by_cases h1 : k0 = k'
      · subst h1
        have hkk : ¬ k = k0 := fun h => h0 h.symm
        simp [hkk]
      · simp [h1, ih]

theorem dictGet_foldl_dictSet (ps : List (PyKey × PyObj)) (d : Dict) (k : PyKey) :
    dictGet (ps.foldl (fun d p => dictSet d p.1 p.2) d) k =
      match (ps.filter (fun p => p.1 == k)).getLast? with
      | some p => some p.2
      | none => dictGet d k := by
  induction ps generalizing d with
  | nil => simp
  | cons p rest ih =>
    simp only [List.foldl_cons, List.filter_cons]
    rw [ih]
    by_cases hpk : p.1 = k
    · simp only [hpk, beq_self_eq_true, if_pos]
      cases hlast : (rest.filter (fun p => p.1 == k)).getLast? with
      | some q =>
        have hne : rest.filter (fun p => p.1 == k) ≠ [] := by
          intro hnil; rw [hnil] at hlast; simp at hlast
        rw [show (p :: rest.filter (fun p => p.1 == k)) =
              [p] ++ rest.filter (fun p => p.1 == k) from rfl,
            List.getLast?_append_of_ne_nil _ hne, hlast]
      | none =>
        have : rest.filter (fun p => p.1 == k) = [] :=
          List.getLast?_eq_none_iff.mp hlast
        rw [this]
        simp [dictGet_dictSet, hpk]
    · have : (p.1 == k) = false := by simp [hpk]
      simp only [this, Bool.false_eq_true, if_false]
      cases hlast : (rest.filter (fun p => p.1 == k)).getLast? with
      | some q => simp
      | none => simp [dictGet_dictSet, hpk]

theorem dictGet_dictOfPairs (ps : List (PyKey × PyObj)) (k : PyKey) :
    dictGet (dictOfPairs ps) k =
      ((ps.filter (fun p => p.1 == k)).getLast?).map Prod.snd := by
  rw [dictOfPairs, dictGet_foldl_dictSet]
  cases (ps.filter (fun p => p.1 == k)).getLast? with
  | some q => rfl
  | none => rfl

theorem dictGet_setArgs_str (args : List PyObj) (d : Dict) (i : Nat) (s : String) :
    dictGet (setArgs d i args) (.str s) = dictGet d (.str s) := by
  induction args generalizing d i with
  | nil => rfl
  | cons a rest ih =>
    rw [setArgs, ih, dictGet_dictSet]
    simp

/-! ### Cross-product lemmas -/

theorem sum_map_const_nat {α : Type} (l : List α) (c : Nat) :
    (l.map (fun _ => c)).sum = l.length * c := by
  induction l with
  | nil => simp
  | cons a rest ih => simp [ih, Nat.succ_mul, Nat.add_comm]

theorem pyProduct_length (Ls : List (List PyObj)) :
    (pyProduct Ls).length = (Ls.map List.length).prod := by
  induction Ls with
  | nil => rfl
  | cons xs rest ih =>
    simp only [pyProduct, List.length_flatMap, List.map_cons, List.prod_cons]
    have hcongr :
        List.map (List.length ∘ fun x => List.map (fun y => x :: y) (pyProduct rest)) xs =
          List.map (fun _ => (List.map List.length rest).prod) xs := by
      refine List.map_congr_left ?_
      intro x _
      simp [Function.comp, ih]
    rw [hcongr, sum_map_const_nat, Nat.mul_comm]

theorem length_of_mem_pyProduct {Ls : List (List PyObj)} {c : List PyObj}
    (h : c ∈ pyProduct Ls) : c.length = Ls.length := by
  induction Ls generalizing c with
  | nil =>
    simp [pyProduct] at h
    simp [h]
  | cons xs rest ih =>
    simp only [pyProduct, List.mem_flatMap, List.mem_map] at h
    obtain ⟨x, _, p, hp, rfl⟩ := h
    simp [ih hp]

theorem flatMap_singleton_map {α β : Type} (l : List α) (g : α → β) :
    (l.flatMap fun x => [g x]) = l.map g := by
  induction l with
  | nil => rfl
  | cons a rest ih => simp_all

theorem pyProduct_snoc (Ls : List (List PyObj)) (L : List PyObj) :
    pyProduct (Ls ++ [L]) =
      (pyProduct Ls).flatMap (fun p => L.map (fun x => p ++ [x])) := by
  induction Ls with
  | nil =>
    simp only [List.nil_append, pyProduct, List.flatMap_cons, List.flatMap_nil,
      List.append_nil, List.map_cons, List.map_nil, List.nil_append]
    exact flatMap_singleton_map L (fun x => [x])
  | cons xs rest ih =>
    simp only [List.cons_append, pyProduct, List.append_eq]
    rw [ih]
    simp [List.map_flatMap, List.flatMap_assoc, List.flatMap_map, List.map_map,
      Function.comp_def, List.cons_append]

theorem pyProduct_singletons (l : List PyObj) :
    pyProduct (l.map (fun v => [v])) = [l] := by
  induction l with
  | nil => rfl
  | cons v rest ih => simp [pyProduct, ih]

theorem zip_of_maps (l : List (PyKey × PyObj)) :
    (l.map Prod.fst).zip (l.map Prod.snd) = l := by
  induction l with
  | nil => rfl
  | cons p rest ih => simp [ih]

/-! ### Expansion lemmas -/

theorem assembleOptions_eq (l : List PyObj) :
    assembleOptions l = (l.map assemble).flatten := by
  induction l with
  | nil => rfl
  | cons a rest ih => simp [assembleOptions, ih]

theorem assembleEach_eq (l : List PyObj) : assembleEach l = l.map assemble := by
  induction l with
  | nil => rfl
  | cons v rest ih => simp [assembleEach, ih]

theorem assembleVals_eq (kvs : List (PyKey × PyObj)) :
    assembleVals kvs = kvs.map (fun kv => assemble kv.2) := by
  induction kvs with
  | nil => rfl
  | cons kv rest ih =>
    obtain ⟨k, v⟩ := kv
    simp [assembleVals, ih]

mutual
theorem assemble_optionFree : (s : PyObj) → optionFree s = true → assemble s = [s]
  | .int _, _ => rfl
  | .str _, _ => rfl
  | .func _, _ => rfl
  | .tup _, h => by simp [optionFree] at h
  | .list vs, h => by
    simp only [assemble]
    rw [assembleEach_optionFree vs (by simpa [optionFree] using h),
      pyProduct_singletons]
    rfl
  | .dict kvs, h => by
    simp only [assemble]
    rw [assembleVals_optionFree kvs (by simpa [optionFree] using h)]
    have hmm : kvs.map (fun kv => [kv.2]) = (kvs.map Prod.snd).map (fun v => [v]) := by
      simp [List.map_map, Function.comp]
    rw [hmm, pyProduct_singletons]
    simp [zip_of_maps]

theorem assembleEach_optionFree : (l : List PyObj) → optionFreeList l = true →
    assembleEach l = l.map (fun v => [v])
  | [], _ => rfl
  | v :: rest, h => by
    have h' : optionFree v = true ∧ optionFreeList rest = true := by
      simpa [optionFreeList, Bool.and_eq_true] using h
    simp only [assembleEach, List.map_cons]
    rw [assemble_optionFree v h'.1, assembleEach_optionFree rest h'.2]

theorem assembleVals_optionFree : (kvs : List (PyKey × PyObj)) →
    optionFreeDict kvs = true → assembleVals kvs = kvs.map (fun kv => [kv.2])
  | [], _ => rfl
  | (k, v) :: rest, h => by
    have h' : optionFree v = true ∧ optionFreeDict rest = true := by
      simpa [optionFreeDict, Bool.and_eq_true] using h
    simp only [assembleVals, List.map_cons]
    rw [assemble_optionFree v h'.1, assembleVals_optionFree rest h'.2]
end

/-! ### Executor lemmas -/

theorem getKey_ok_iff {d : Dict} {k : PyKey} {v : PyObj} :
    getKey d k = .ok v ↔ dictGet d k = some v := by
  unfold getKey
  cases dictGet d k <;> simp

theorem writeOuts_ok_get {vs : List PyObj} {d d' : Dict} {pairs : List (Nat × PyObj)}
    (h : writeOuts vs d pairs = .ok d') (k : PyKey) :
    dictGet d' k =
      match (pairs.filter (fun p => writesKeyB k p.2)).getLast? with
      | some p => vs[p.1]?
      | none => dictGet d k := by
  induction pairs generalizing d with
  | nil =>
    simp only [writeOuts, Except.ok.injEq] at h
    subst h
    rfl
  | cons q rest ih =>
    obtain ⟨i, out⟩ := q
    simp only [writeOuts] at h
    cases hvi : vs[i]? with
    | none => rw [hvi] at h; cases h
    | some v =>
      rw [hvi] at h
      cases htk : toKey out with
      | error e => rw [htk] at h; cases h
      | ok k0 =>
        rw [htk] at h
        rw [ih h]
        simp only [List.filter_cons]
        by_cases hw : writesKeyB k out
        · simp only [hw, if_pos]
          have hk0 : k0 = k := by
            simp only [writesKeyB, htk, beq_iff_eq] at hw
            exact hw
          cases hlast : (rest.filter (fun p => writesKeyB k p.2)).getLast? with
          | some qq =>
            have hne : rest.filter (fun p => writesKeyB k p.2) ≠ [] := by
              intro hnil; rw [hnil] at hlast; cases hlast
            rw [show ((i, out) :: rest.filter (fun p => writesKeyB k p.2)) =
                  [(i, out)] ++ rest.filter (fun p => writesKeyB k p.2) from rfl,
              List.getLast?_append_of_ne_nil _ hne, hlast]
          | none =>
            have hnil : rest.filter (fun p => writesKeyB k p.2) = [] :=
              List.getLast?_eq_none_iff.mp hlast
            rw [hnil]
            simp [dictGet_dictSet, hk0, hvi]
        · simp only [hw, Bool.false_eq_true, if_false]
          have hk0 : ¬ k0 = k := by
            simp only [writesKeyB, htk, beq_iff_eq] at hw
            exact hw
          cases hlast : (rest.filter (fun p => writesKeyB k p.2)).getLast? with
          | some qq => rfl
          | none => simp [dictGet_dictSet, hk0]

theorem writeOuts_ok_isSome {vs : List PyObj} {d d' : Dict} {pairs : List (Nat × PyObj)}
    (h : writeOuts vs d pairs = .ok d') : ∀ p ∈ pairs, (vs[p.1]?).isSome := by
  induction pairs generalizing d with
  | nil => intro p hp; cases hp
  | cons q rest ih =>
    obtain ⟨i, out⟩ := q
    simp only [writeOuts] at h
    cases hvi : vs[i]? with
    | none => rw [hvi] at h; cases h
    | some v =>
      rw [hvi] at h
      cases htk : toKey out with
      | error e => rw [htk] at h; cases h
      | ok k0 =>
        rw [htk] at h
        intro p hp
        rcases List.mem_cons.mp hp with rfl | hmem
        · simp [hvi]
        · exact ih h p hmem

theorem writeOuts_take {vs : List PyObj} {n : Nat} {pairs : List (Nat × PyObj)}
    (hb : ∀ p ∈ pairs, p.1 < n) (d : Dict) :
    writeOuts (vs.take n) d pairs = writeOuts vs d pairs := by
  induction pairs generalizing d with
  | nil => rfl
  | cons q rest ih =>
    obtain ⟨i, out⟩ := q
    have hi : i < n := hb (i, out) (List.mem_cons_self _ _)
    simp only [writeOuts, List.getElem?_take, if_pos hi]
    cases vs[i]? with
    | none => rfl
    | some v =>
      cases toKey out with
      | error e => rfl
      | ok k => exact ih (fun p hp => hb p (List.mem_cons_of_mem _ hp)) _

theorem writeOuts_ok_of {vs : List PyObj} {pairs : List (Nat × PyObj)}
    (hidx : ∀ p ∈ pairs, (vs[p.1]?).isSome)
    (hkeys : ∀ p ∈ pairs, ∃ k, toKey p.2 = .ok k) (d : Dict) :
    ∃ d', writeOuts vs d pairs = .ok d' := by
  induction pairs generalizing d with
  | nil => exact ⟨d, rfl⟩
  | cons q rest ih =>
    obtain ⟨i, out⟩ := q
    obtain ⟨v, hv⟩ := Option.isSome_iff_exists.mp (hidx (i, out) (List.mem_cons_self _ _))
    obtain ⟨k, hk⟩ := hkeys (i, out) (List.mem_cons_self _ _)
    simp only [writeOuts, hv, hk]
    exact ih (fun p hp => hidx p (List.mem_cons_of_mem _ hp))
      (fun p hp => hkeys p (List.mem_cons_of_mem _ hp)) _

theorem runStage_ok_elim {F : FuncTable} {d d' : Dict} {st : PyObj}
    (h : runStage F d st = .ok d') :
    ∃ skvs rawOut outList outs, st = .dict skvs ∧
      stageCall F d skvs = .ok rawOut ∧
      dictGet skvs (.str "out") = some outList ∧
      pyIter outList = .ok outs ∧
      writeOuts (normalizeOutputs rawOut) d outs.enum = .ok d' := by
  cases st with
  | dict skvs =>
    simp only [runStage] at h
    split at h
    · cases h
    · rename_i rawOut hcall
      split at h
      · cases h
      · rename_i outList hout
        split at h
        · cases h
        · rename_i outs hiter
          exact ⟨skvs, rawOut, outList, outs, rfl, hcall, getKey_ok_iff.mp hout, hiter, h⟩
  | int n => cases h
  | str s => cases h
  | func i => cases h
  | tup vs => cases h
  | list vs => cases h

theorem runStage_preserve {F : FuncTable} {d d' : Dict} {st : PyObj} {s : PyKey}
    (h : runStage F d st = .ok d') (hw : stageWritesKey st s = false) :
    dictGet d' s = dictGet d s := by
  obtain ⟨skvs, rawOut, outList, outs, rfl, hcall, hout, hiter, hwr⟩ := runStage_ok_elim h
  have hget := writeOuts_ok_get hwr s
  have hany : outs.any (writesKeyB s) = false := by
    simp only [stageWritesKey, hout, hiter] at hw
    exact hw
  have hall : ∀ o ∈ outs, writesKeyB s o = false := by
    intro o ho
    by_contra hcon
    have : outs.any (writesKeyB s) = true :=
      List.any_eq_true.mpr ⟨o, ho, by simpa using hcon⟩
    rw [this] at hany
    cases hany
  have hfil : outs.enum.filter (fun p => writesKeyB s p.2) = [] := by
    rw [List.filter_eq_nil_iff]
    intro p hp
    obtain ⟨i, o⟩ := p
    have hmem : o ∈ outs := by
      obtain ⟨hlt, ho⟩ := List.mem_enum hp
      rw [ho]
      exact List.getElem_mem _
    simp [hall o hmem]
  rw [hget, hfil]
  rfl

theorem runStages_append (F : FuncTable) (d : Dict) (p q : List PyObj) :
    runStages F d (p ++ q) =
      match runStages F d p with
      | .ok d' => runStages F d' q
      | .error e => .error e := by
  induction p generalizing d with
  | nil => rfl
  | cons st rest ih =>
    simp only [List.cons_append, runStages]
    cases runStage F d st with
    | error e => rfl
    | ok d0 => exact ih d0

theorem runStages_preserve {F : FuncTable} {d d' : Dict} {p : List PyObj} {s : PyKey}
    (h : runStages F d p = .ok d') (hw : ∀ st ∈ p, stageWritesKey st s = false) :
    dictGet d' s = dictGet d s := by
  induction p generalizing d with
  | nil =>
    simp only [runStages, Except.ok.injEq] at h
    subst h
    rfl
  | cons st rest ih =>
    simp only [runStages] at h
    cases hst : runStage F d st with
    | error e => rw [hst] at h; cases h
    | ok d0 =>
      rw [hst] at h
      rw [ih h (fun t ht => hw t (List.mem_cons_of_mem _ ht)),
        runStage_preserve hst (hw st (List.mem_cons_self _ _))]

/-! ### Claim theorems: expansion -/

/-- Claim C1: expanding an option node (tuple) of k alternatives returns the
concatenation of the alternatives' expansion lists in alternative order, so
the number of combinations is the sum (not the product) of the alternatives'
combination counts. -/
theorem c1_option_node_sum (alts : List PyObj) :
    assemble (.tup alts) = (alts.map assemble).flatten ∧
    (assemble (.tup alts)).length =
      (alts.map (fun a => (assemble a).length)).sum := by
  have heq : assemble (.tup alts) = (alts.map assemble).flatten := by
    simp only [assemble]
    exact assembleOptions_eq alts
  refine ⟨heq, ?_⟩
  rw [heq, List.length_flatten, List.map_map]
  simp [Function.comp_def]

/-- Claim C2: expanding a sequence node (list) of m children yields exactly
the product of the children's combination counts, each combination is a list
of the same length m, and the enumeration is in cross-product order with the
last (rightmost) child varying fastest: appending a child makes it the
innermost (fastest) axis. -/
theorem c2_sequence_node_product (vs : List PyObj) :
    (assemble (.list vs)).length = (vs.map (fun v => (assemble v).length)).prod ∧
    (∀ c ∈ assemble (.list vs), ∃ ws, c = .list ws ∧ ws.length = vs.length) ∧
    (∀ v, assemble (.list (vs ++ [v])) =
      (pyProduct (vs.map assemble)).flatMap
        (fun p => (assemble v).map (fun x => .list (p ++ [x])))) := by
  refine ⟨?_, ?_, ?_⟩
  · simp only [assemble, List.length_map, pyProduct_length, assembleEach_eq,
      List.map_map]
    simp [Function.comp_def]
  · intro c hc
    simp only [assemble, List.mem_map] at hc
    obtain ⟨p, hp, rfl⟩ := hc
    refine ⟨p, rfl, ?_⟩
    rw [length_of_mem_pyProduct hp, assembleEach_eq, List.length_map]
  · intro v
    simp only [assemble, assembleEach_eq, List.map_append, List.map_cons,
      List.map_nil]
    rw [pyProduct_snoc]
    simp [List.map_flatMap, List.map_map, Function.comp_def]

/-- Claim C6: a specification tree with zero option nodes expands to exactly
one concrete specification, structurally equal to the input tree. -/
theorem c6_option_free_identity (s : PyObj) (h : optionFree s = true) :
    assemble s = [s] :=
  assemble_optionFree s h

/-- Witness for C6 at a concrete option-free tree (a list holding a mapping
and an atom). -/
theorem c6_option_free_identity_witness :
    assemble (.list [.dict [(.str "k", .int 1)], .int 2]) =
      [.list [.dict [(.str "k", .int 1)], .int 2]] :=
  c6_option_free_identity (.list [.dict [(.str "k", .int 1)], .int 2]) rfl

/-- Counterexample to C7: an option node (tuple) with zero children expands
to zero combinations, not to the single empty container the claim states. -/
theorem c7_empty_tuple_counterexample :
    assemble (.tup []) = [] ∧ assemble (.tup []) ≠ [.tup []] := by
  refine ⟨rfl, ?_⟩
  intro hcon
  rw [show assemble (.tup []) = [] from rfl] at hcon
  exact List.noConfusion hcon

/-- Claim C7 as amended: a mapping or list node with zero children expands
to exactly one combination (the empty container itself), while an option
node (tuple) with zero alternatives expands to zero combinations. -/
theorem c7_empty_containers :
    assemble (.dict []) = [.dict []] ∧
    assemble (.list []) = [.list []] ∧
    assemble (.tup []) = [] :=
  ⟨rfl, rfl, rfl⟩

/-! ### Claim theorems: result flattening -/

/-- Counterexample to C8: in `{'a': 2, 0: {'a': 1}}` the top-level key `'a'`
is iterated before the container `0`, so the promoted descendant pair
`('a', 1)` comes later in the pair list and overwrites the top-level value:
flattening binds `'a'` to the descendant's `1`, not the top-level `2`. -/
theorem c8_flatten_counterexample :
    filter_results [[(.str "a", .int 2), (.int 0, .dict [(.str "a", .int 1)])]]
        none true =
      [[(.str "a", .int 1), (.int 0, .dict [(.str "a", .int 1)])]] ∧
    dictGet
        (flattenNestedDict
          (.dict [(.str "a", .int 2), (.int 0, .dict [(.str "a", .int 1)])]))
        (.str "a") ≠ some (.int 2) := by
  refine ⟨rfl, ?_⟩
  intro hcon
  rw [show dictGet
        (flattenNestedDict
          (.dict [(.str "a", .int 2), (.int 0, .dict [(.str "a", .int 1)])]))
        (.str "a") = some (.int 1) from rfl] at hcon
  injection hcon with h1
  injection h1 with h2
  omega

/-- Claim C8 as amended: flattening enumerates each mapping's pairs parent
before child and then builds the result dict with *last*-seen-wins: the
value bound to a key is the one of the last pair with that key in the
depth-first pair enumeration, so a promoted descendant key overwrites a
top-level key that was iterated before its container (the top-level value
survives only when it is iterated after the colliding descendant). -/
theorem c8_flatten_last_seen_wins :
    (∀ rs, filter_results rs none true =
      rs.map (fun r => flattenNestedDict (.dict r))) ∧
    (∀ x k, dictGet (flattenNestedDict x) k =
      ((flattenPairs x).filter (fun p => p.1 == k)).getLast?.map Prod.snd) := by
  constructor
  · intro rs
    simp [filter_results]
  · intro x k
    rw [flattenNestedDict, dictGet_dictOfPairs]

/-! ### Claim theorems: executor initialization -/

/-- Claim C10: before the first stage runs, the environment binds the
reserved key `'pipeline'` to the flat ordered stage list, overwriting any
caller-supplied named input under that key (positional inputs are bound to
integer keys and cannot collide with it). -/
theorem c10_pipeline_key_reserved (F : FuncTable) (stages : List PyObj)
    (args : List PyObj) (kwargs : Dict) :
    dictGet (initEnv stages args kwargs) (.str "pipeline") =
      some (.list stages) ∧
    run_pipeline F stages args kwargs =
      runStages F (initEnv stages args kwargs) stages := by
  refine ⟨?_, rfl⟩
  rw [initEnv, dictGet_setArgs_str, dictGet_dictSet]
  simp

/-! ### Claim theorems: driver isolation -/

/-- Claim C3: in one `transform` call over several concrete specifications,
a combination whose execution fails is excluded from the returned list
while every other combination is still executed, its result appears, and
the relative order of the successful results is preserved. -/
theorem c3_per_combination_isolation (F : FuncTable) (a b c : PyObj)
    (pa pb pc : List PyObj) (args : List PyObj) (kwargs : Dict)
    (envA envC : Dict) (e : PyError)
    (ha : optionFree a = true) (hb : optionFree b = true)
    (hc : optionFree c = true)
    (hca : construct a = .ok pa) (hcb : construct b = .ok pb)
    (hcc : construct c = .ok pc)
    (hrb : run_pipeline F pb args kwargs = .error e)
    (hra : run_pipeline F pa args kwargs = .ok envA)
    (hrc : run_pipeline F pc args kwargs = .ok envC) :
    transform F (.tup [a, b, c]) args kwargs = .ok [envA, envC] := by
  have hassem : assemble (.tup [a, b, c]) = [a, b, c] := by
    simp only [assemble, assembleOptions, assemble_optionFree a ha,
      assemble_optionFree b hb, assemble_optionFree c hc]
    rfl
  rw [transform, hassem]
  simp only [transformCombos, hca, hcb, hcc, hra, hrb, hrc]

/-- Witness for C3: the middle of three alternatives reads an undeclared
sink and fails; `transform` returns the other two results in order. -/
theorem c3_per_combination_isolation_witness :
    transform wF (.tup [.list [wOut 0], .list [wBad], .list [wOut 0]]) [] [] =
      .ok [[(.str "pipeline", .list [wOut 0]), (.str "x", .int 7)],
           [(.str "pipeline", .list [wOut 0]), (.str "x", .int 7)]] :=
  c3_per_combination_isolation wF (.list [wOut 0]) (.list [wBad])
    (.list [wOut 0]) [wOut 0] [wBad] [wOut 0] [] []
    [(.str "pipeline", .list [wOut 0]), (.str "x", .int 7)]
    [(.str "pipeline", .list [wOut 0]), (.str "x", .int 7)]
    .keyError rfl rfl rfl rfl rfl rfl rfl rfl rfl

/-- Counterexample to C9: a stage mapping missing its `out` key is not
detected during expansion and is not fatal for the whole `transform` call:
expansion succeeds (two combinations), the malformed combination's error is
caught at the per-combination boundary, and the other combination executes
and returns its result. -/
theorem c9_malformed_counterexample :
    (assemble (.tup [.list [wNoOut], .list [wOut 0]])).length = 2 ∧
    transform wF (.tup [.list [wNoOut], .list [wOut 0]]) [] [] =
      .ok [[(.str "pipeline", .list [wOut 0]), (.str "x", .int 7)]] ∧
    ([[(.str "pipeline", PyObj.list [wOut 0]), (.str "x", PyObj.int 7)]] :
      List Dict) ≠ [] :=
  ⟨rfl, rfl, List.cons_ne_nil _ _⟩

/-- Claim C9 as amended: a structural malformation such as a stage mapping
missing `out` is not detected during expansion; it surfaces as an execution
error of that combination alone, caught at the per-combination boundary,
and the remaining combinations still execute and deliver their results. -/
theorem c9_malformed_not_fatal (F : FuncTable) (s1 s2 : PyObj)
    (p1 p2 : List PyObj) (args : List PyObj) (kwargs : Dict) (e : PyError)
    (env : Dict)
    (h1 : optionFree s1 = true) (h2 : optionFree s2 = true)
    (hc1 : construct s1 = .ok p1) (hc2 : construct s2 = .ok p2)
    (hr1 : run_pipeline F p1 args kwargs = .error e)
    (hr2 : run_pipeline F p2 args kwargs = .ok env) :
    transform F (.tup [s1, s2]) args kwargs = .ok [env] := by
  have hassem : assemble (.tup [s1, s2]) = [s1, s2] := by
    simp only [assemble, assembleOptions, assemble_optionFree s1 h1,
      assemble_optionFree s2 h2]
    rfl
  rw [transform, hassem]
  simp only [transformCombos, hc1, hc2, hr1, hr2]

/-- Witness for the amended C9: the first alternative's only stage lacks
`out` (its execution raises a key error after the call), the second
alternative succeeds and is the only returned result. -/
theorem c9_malformed_not_fatal_witness :
    transform wF (.tup [.list [wNoOut], .list [wOut 0]]) [] [] =
      .ok [[(.str "pipeline", .list [wOut 0]), (.str "x", .int 7)]] :=
  c9_malformed_not_fatal wF (.list [wNoOut]) (.list [wOut 0]) [wNoOut]
    [wOut 0] [] [] .keyError
    [(.str "pipeline", .list [wOut 0]), (.str "x", .int 7)]
    rfl rfl rfl rfl rfl rfl

/-! ### Claim theorems: stage output handling -/

/-- Claim C5: a stage's return value is normalized to a tuple (a non-tuple
return becomes a one-element tuple, a tuple is used as-is), outputs are
written positionally to the `out` identifiers, only the first `len(out)`
outputs are consumed (a longer return tuple causes no error and the extras
are discarded), and a bare non-tuple return with a single `out` identifier
is bound unchanged. -/
theorem c5_output_normalization (F : FuncTable) (d skvs : Dict)
    (rawOut outList : PyObj) (outs : List PyObj)
    (hcall : stageCall F d skvs = .ok rawOut)
    (hout : dictGet skvs (.str "out") = some outList)
    (hiter : pyIter outList = .ok outs)
    (hkeys : ∀ o ∈ outs, ∃ k, toKey o = .ok k)
    (hlen : outs.length ≤ (normalizeOutputs rawOut).length) :
    (∀ v : PyObj, (∀ ws, v ≠ .tup ws) → normalizeOutputs v = [v]) ∧
    (∀ ws, normalizeOutputs (.tup ws) = ws) ∧
    runStage F d (.dict skvs) =
      writeOuts (normalizeOutputs rawOut) d outs.enum ∧
    runStage F d (.dict skvs) =
      writeOuts ((normalizeOutputs rawOut).take outs.length) d outs.enum ∧
    (∃ d', runStage F d (.dict skvs) = .ok d') ∧
    (∀ o k, outs = [o] → toKey o = .ok k → (∀ ws, rawOut ≠ .tup ws) →
      runStage F d (.dict skvs) = .ok (dictSet d k rawOut) ∧
      dictGet (dictSet d k rawOut) k = some rawOut) := by
  have hnorm : ∀ v : PyObj, (∀ ws, v ≠ .tup ws) → normalizeOutputs v = [v] := by
    intro v hv
    cases v with
    | tup ws => exact absurd rfl (hv ws)
    | int n => rfl
    | str s => rfl
    | func i => rfl
    | list vs => rfl
    | dict kvs => rfl
  have hrs : runStage F d (.dict skvs) =
      writeOuts (normalizeOutputs rawOut) d outs.enum := by
    simp only [runStage, hcall, getKey, hout, hiter]
  have hb : ∀ p ∈ outs.enum, p.1 < outs.length := by
    intro p hp
    obtain ⟨i, o⟩ := p
    exact (List.mem_enum hp).1
  have hidx : ∀ p ∈ outs.enum, ((normalizeOutputs rawOut)[p.1]?).isSome := by
    intro p hp
    rw [List.getElem?_eq_getElem (lt_of_lt_of_le (hb p hp) hlen)]
    rfl
  have hkeys' : ∀ p ∈ outs.enum, ∃ k, toKey p.2 = .ok k := by
    intro p hp
    obtain ⟨i, o⟩ := p
    obtain ⟨hlt, ho⟩ := List.mem_enum hp
    exact hkeys o (by rw [ho]; exact List.getElem_mem _)
  obtain ⟨dr, hdr⟩ := writeOuts_ok_of hidx hkeys' d
  refine ⟨hnorm, fun ws => rfl, hrs, ?_, ⟨dr, hrs.trans hdr⟩, ?_⟩
  · rw [hrs, writeOuts_take hb]
  · intro o k houts htk hnt
    subst houts
    have hone : normalizeOutputs rawOut = [rawOut] := hnorm rawOut hnt
    constructor
    · rw [hrs, hone]
      show writeOuts [rawOut] d [(0, o)] = Except.ok (dictSet d k rawOut)
      simp [writeOuts, htk]
    · rw [dictGet_dictSet]
      simp

/-- Witness for C5: a stage whose callable returns the 3-tuple (1, 2, 3)
with `out = ["a", "b"]` runs without error. -/
theorem c5_output_normalization_witness :
    ∃ d', runStage wF [] (.dict wMultiKvs) = .ok d' :=
  (c5_output_normalization wF [] wMultiKvs (.tup [.int 1, .int 2, .int 3])
    (.list [.str "a", .str "b"]) [.str "a", .str "b"] rfl rfl rfl
    (by
      intro o ho
      rcases List.mem_cons.mp ho with rfl | ho2
      · exact ⟨.str "a", rfl⟩
      · rcases List.mem_cons.mp ho2 with rfl | ho3
        · exact ⟨.str "b", rfl⟩
        · cases ho3)
    (by decide)).2.2.2.2.1

/-! ### Claim theorems: last-writer-wins -/

theorem filter_enum_ne_nil {α : Type} (q : α → Bool) (l : List α)
    (h : l.any q = true) : l.enum.filter (fun p => q p.2) ≠ [] := by
  have main : ∀ (l : List α) (i : Nat), l.any q = true →
      (List.enumFrom i l).filter (fun p => q p.2) ≠ [] := by
    intro l
    induction l with
    | nil =>
      intro i h0
      simp at h0
    | cons a rest ih =>
      intro i h0
      simp only [List.enumFrom, List.filter_cons]
      by_cases hqa : q a
      · simp [hqa]
      · have h1 : rest.any q = true := by
          simp only [List.any_cons, hqa, Bool.false_or] at h0
          exact h0
        simp only [hqa, Bool.false_eq_true, if_false]
        exact ih (i + 1) h1
  simpa [List.enum] using main l 0 h

/-- Claim C4: when two stages of a flat stage list both declare sink `s` in
their `out` lists and no later stage writes `s`, the value bound to `s` in
the final environment of a successful run is the one written by the later
of the two stages (at the last position of `s` in its `out` list), computed
from that stage's own invocation: last-writer-wins in flattened declaration
order. -/
theorem c4_last_writer_wins (F : FuncTable) (args : List PyObj) (kwargs : Dict)
    (p1 p2 p3 : List PyObj) (stA stB : PyObj) (skvsB : Dict)
    (outListB : PyObj) (outsB : List PyObj) (s : PyKey) (e : Dict)
    (hrun : run_pipeline F (p1 ++ stA :: p2 ++ stB :: p3) args kwargs = .ok e)
    (hA : stageWritesKey stA s = true)
    (hB : stB = .dict skvsB)
    (houtB : dictGet skvsB (.str "out") = some outListB)
    (hiterB : pyIter outListB = .ok outsB)
    (hsB : outsB.any (writesKeyB s) = true)
    (hp2 : ∀ st ∈ p2, stageWritesKey st s = false)
    (hp3 : ∀ st ∈ p3, stageWritesKey st s = false) :
    ∃ d rawOut i,
      runStages F (initEnv (p1 ++ stA :: p2 ++ stB :: p3) args kwargs)
        (p1 ++ stA :: p2) = .ok d ∧
      stageCall F d skvsB = .ok rawOut ∧
      lastWritePos outsB s = some i ∧
      dictGet e s = (normalizeOutputs rawOut)[i]? ∧
      (dictGet e s).isSome := by
  subst hB
  unfold run_pipeline at hrun
  set e0 := initEnv (p1 ++ stA :: p2 ++ PyObj.dict skvsB :: p3) args kwargs
    with he0
  have hsplit : p1 ++ stA :: p2 ++ PyObj.dict skvsB :: p3 =
      (p1 ++ stA :: p2) ++ PyObj.dict skvsB :: p3 := by
    simp
  rw [hsplit, runStages_append] at hrun
  split at hrun
  · rename_i d hd
    simp only [runStages] at hrun
    cases hstB : runStage F d (PyObj.dict skvsB) with
    | error er => rw [hstB] at hrun; cases hrun
    | ok d2 =>
      rw [hstB] at hrun
      obtain ⟨skvs', rawOut, outList', outs', heq, hcall, hout', hiter', hwr⟩ :=
        runStage_ok_elim hstB
      injection heq with hskvs
      subst hskvs
      have houtEq : outList' = outListB := by
        rw [hout'] at houtB
        exact Option.some.inj houtB
      subst houtEq
      have houtsEq : outsB = outs' := by
        rw [hiter'] at hiterB
        exact (Except.ok.inj hiterB).symm
      subst houtsEq
      have hget := writeOuts_ok_get hwr s
      have hne : outsB.enum.filter (fun p => writesKeyB s p.2) ≠ [] :=
        filter_enum_ne_nil (writesKeyB s) outsB hsB
      cases hlast : (outsB.enum.filter (fun p => writesKeyB s p.2)).getLast? with
      | none => exact absurd (List.getLast?_eq_none_iff.mp hlast) hne
      | some q =>
        have hq_mem_enum : q ∈ outsB.enum :=
          List.mem_of_mem_filter (getLast?_mem hlast)
        have hisSome : ((normalizeOutputs rawOut)[q.1]?).isSome :=
          writeOuts_ok_isSome hwr q hq_mem_enum
        have hd2 : dictGet d2 s = (normalizeOutputs rawOut)[q.1]? := by
          rw [hget, hlast]
        have hfin : dictGet e s = dictGet d2 s := runStages_preserve hrun hp3
        refine ⟨d, rawOut, q.1, hd, hcall, ?_, ?_, ?_⟩
        · unfold lastWritePos
          rw [hlast]
          rfl
        · rw [hfin, hd2]
        · rw [hfin, hd2]
          exact hisSome
  · rename_i er her
    cases hrun

/-- Witness for C4: two no-input stages both write sink `"x"` (the first
writes 10, the second 20); the run succeeds and the final environment holds
the later stage's value for `"x"`. -/
theorem c4_last_writer_wins_witness :
    ∃ d rawOut i,
      runStages wF (initEnv [wOut 1, wOut 2] [] []) [wOut 1] = .ok d ∧
      stageCall wF d
        [(.str "function", .func 2), (.str "in", .list []),
         (.str "out", .list [.str "x"])] = .ok rawOut ∧
      lastWritePos [.str "x"] (.str "x") = some i ∧
      dictGet [(.str "pipeline", .list [wOut 1, wOut 2]), (.str "x", .int 20)]
        (.str "x") = (normalizeOutputs rawOut)[i]? ∧
      (dictGet [(.str "pipeline", .list [wOut 1, wOut 2]), (.str "x", .int 20)]
        (.str "x")).isSome :=
  c4_last_writer_wins wF [] [] [] [] [] (wOut 1) (wOut 2)
    [(.str "function", .func 2), (.str "in", .list []),
     (.str "out", .list [.str "x"])]
    (.list [.str "x"]) [.str "x"] (.str "x")
    [(.str "pipeline", .list [wOut 1, wOut 2]), (.str "x", .int 20)]
    rfl rfl rfl rfl rfl rfl
    (fun st hst => absurd hst (List.not_mem_nil st))
    (fun st hst => absurd hst (List.not_mem_nil st))
